import Mathlib

/-!
# Verification of the plinking_duck analytics kernels

Shallow embedding of the core aggregation kernels of the `plinking_duck`
extension (files `src/plink_freq.cpp`, `src/plink_missing.cpp`,
`src/plink_score.cpp`, `src/plink_common.cpp`) together with proofs about
them.

Modelling conventions:
* `double` arithmetic is modelled exactly over `ℚ` (the kernels perform only
  field operations and comparisons on values derived from small integer
  counts);
* `uint32_t` counters are modelled over `ℕ` (the quantities involved are
  genotype counts bounded by the 32-bit sample count, and the subtractions
  performed are shown not to underflow);
* bit-packed 2-bit genotype vectors are modelled as lists of codes in
  `Fin 4` (`0 = hom-ref`, `1 = het`, `2 = hom-alt`, `3 = missing`), matching
  the 2-bit extraction loop of `ComputeLdStats`;
* missingness bitmasks are modelled as lists of booleans indexed by sample.
-/

namespace PlinkingDuck

/-- Genotype counts for one variant as returned by the decoder's fast-count
path: `[hom_ref_ct, het_ct, hom_alt_ct, missing_ct]`. -/
structure GenoCounts where
  homRef : ℕ
  het : ℕ
  homAlt : ℕ
  missing : ℕ
deriving DecidableEq, Repr

/-- Observed (non-missing) sample count: `counts[0]+counts[1]+counts[2]`. -/
def GenoCounts.obsSampleCt (gc : GenoCounts) : ℕ :=
  gc.homRef + gc.het + gc.homAlt

/-- Output of the frequency kernel for one variant: the `OBS_CT` column and
the nullable `ALT_FREQ` column. -/
structure FreqRow where
  obsCt : ℕ
  altFreq : Option ℚ
deriving DecidableEq, Repr

/-- Per-variant computation of the frequency kernel, from
`PlinkFreqScan` (`src/plink_freq.cpp`, derived-value block and the
`COL_ALT_FREQ`/`COL_OBS_CT` emission cases): `obs_sample_ct` is the sum of
the three non-missing genotype counts, `obs_ct = 2 * obs_sample_ct`, and
`ALT_FREQ` is emitted null exactly when `obs_sample_ct == 0`, otherwise
`(het + 2*hom_alt) / (2*obs_sample_ct)`. -/
def freqKernel (gc : GenoCounts) : FreqRow :=
  let obsSampleCt := gc.homRef + gc.het + gc.homAlt
  let obsCt := 2 * obsSampleCt
  if obsSampleCt = 0 then
    { obsCt := obsCt, altFreq := none }
  else
    { obsCt := obsCt,
      altFreq := some (((gc.het : ℚ) + 2 * (gc.homAlt : ℚ)) / (2 * (obsSampleCt : ℚ))) }

/-- Clamp of the final p-value to `[0, 1]`, from the tail of `HweExactTest`
(`src/plink_freq.cpp`): `if (p_value < 0.0) return 0.0; if (p_value > 1.0)
return 1.0; return p_value;`. -/
def clamp01 (q : ℚ) : ℚ :=
  if q < 0 then 0 else if 1 < q then 1 else q

/-- Upward recurrence of `HweExactTest`: starting at the mode, fill
`het_probs[k+2] = het_probs[k] * 4*homr*homc / ((k+1)(k+2))` while
`k + 2 ≤ rare_copies`, decrementing the homozygote counters and
accumulating the running sum. -/
def hweUp (rare curr homr homc : ℕ) (probs : Array ℚ) (s : ℚ) : Array ℚ × ℚ :=
  if _h : curr + 2 ≤ rare then
    let p2 := probs.getD curr 0 * 4 * (homr : ℚ) * (homc : ℚ) /
      (((curr : ℚ) + 1) * ((curr : ℚ) + 2))
    hweUp rare (curr + 2) (homr - 1) (homc - 1) (probs.setD (curr + 2) p2) (s + p2)
  else (probs, s)
termination_by rare - curr
decreasing_by omega

/-- Downward recurrence of `HweExactTest`: starting at the mode, fill
`het_probs[k-2] = het_probs[k] * k(k-1) / (4*(homr+1)(homc+1))` while
`k ≥ 2`, incrementing the homozygote counters and accumulating the running
sum. -/
def hweDown (curr homr homc : ℕ) (probs : Array ℚ) (s : ℚ) : Array ℚ × ℚ :=
  if _h : 2 ≤ curr then
    let p2 := probs.getD curr 0 * (curr : ℚ) * ((curr : ℚ) - 1) /
      (4 * ((homr : ℚ) + 1) * ((homc : ℚ) + 1))
    hweDown (curr - 2) (homr + 1) (homc + 1) (probs.setD (curr - 2) p2) (s + p2)
  else (probs, s)
termination_by curr
decreasing_by omega

/-- Tail-probability accumulation of `HweExactTest`: sum `het_probs[i]/sum`
over `i = start, start+2, ..., ≤ rare_copies` whenever that ratio is at most
the threshold. -/
def hweScan (probs : Array ℚ) (s thr : ℚ) (rare i : ℕ) : ℚ :=
  if _h : i ≤ rare then
    (if probs.getD i 0 / s ≤ thr then probs.getD i 0 / s else 0) +
      hweScan probs s thr rare (i + 2)
  else 0
termination_by rare + 1 - i
decreasing_by omega

/-- Unclamped p-value of `HweExactTest` for ordered homozygote counts
`homr ≤ homc` (`src/plink_freq.cpp`): mode computation with parity
adjustment, the two recurrences, threshold `p_obs * (1 + 1e-8)`, the
even-index scan plus the odd-index scan when `rare_copies` is odd, and the
optional mid-p adjustment. `hets` doubles as the observed heterozygote count
indexing `p_obs`. -/
def hwePValue (homr homc hets : ℕ) (midp : Bool) : ℚ :=
  let rare := 2 * homr + hets
  let common := 2 * homc + hets
  let n := homc + homr + hets
  let mid0 := rare * common / (2 * n)
  let mid := if mid0 % 2 ≠ rare % 2 then mid0 + 1 else mid0
  let probs0 := (Array.mkArray (rare + 1) (0 : ℚ)).setD mid 1
  let up := hweUp rare mid ((rare - mid) / 2) ((common - mid) / 2) probs0 1
  let down := hweDown mid ((rare - mid) / 2) ((common - mid) / 2) up.1 up.2
  let obsProb := down.1.getD hets 0 / down.2
  let thr := obsProb * (1 + 1 / 10 ^ 8)
  let pEven := hweScan down.1 down.2 thr rare 0
  let pAll := if rare % 2 = 1 then pEven + hweScan down.1 down.2 thr rare 1 else pEven
  if midp then pAll - obsProb * (1 / 2) else pAll

/-- Hardy-Weinberg exact test (`HweExactTest`, `src/plink_freq.cpp`,
Wigginton et al. 2005): returns `1` when all three counts are zero,
otherwise orders the homozygote counts (`homr = min`, `homc = max`),
computes the exact-test p-value and clamps it to `[0, 1]`. -/
def hweExactTest (h1 hets h2 : ℕ) (midp : Bool) : ℚ :=
  if h1 + hets + h2 = 0 then 1
  else clamp01 (hwePValue (min h1 h2) (max h1 h2) hets midp)

/-- Internal per-variant values of the Hardy kernel before emission
(`PlinkHardyScan`, derived-value block): when `obs == 0` the stats are
flagged null and `p_hwe` is set to `1.0`; otherwise `o_het = het/obs`,
`e_het = 2pq`, and `p_hwe` comes from `HweExactTest`. -/
structure HardyVals where
  oHet : ℚ
  eHet : ℚ
  pHwe : ℚ
  statsNull : Bool
deriving DecidableEq, Repr

/-- Derived-value block of `PlinkHardyScan` (`src/plink_freq.cpp`). -/
def hardyCompute (gc : GenoCounts) (midp : Bool) : HardyVals :=
  let obs := gc.homRef + gc.het + gc.homAlt
  if obs = 0 then ⟨0, 0, 1, true⟩
  else
    let oHet : ℚ := (gc.het : ℚ) / (obs : ℚ)
    let p : ℚ := (2 * (gc.homRef : ℚ) + (gc.het : ℚ)) / (2 * (obs : ℚ))
    let q : ℚ := 1 - p
    ⟨oHet, 2 * p * q, hweExactTest gc.homRef gc.het gc.homAlt midp, false⟩

/-- Nullable statistics columns of one Hardy kernel output row. -/
structure HardyRow where
  oHet : Option ℚ
  eHet : Option ℚ
  pHwe : Option ℚ
deriving DecidableEq, Repr

/-- Emission cases `COL_O_HET`, `COL_E_HET`, `COL_P_HWE` of `PlinkHardyScan`:
each of the three columns is set null when `stats_are_null`, otherwise it
carries the computed value. -/
def hardyEmit (v : HardyVals) : HardyRow :=
  if v.statsNull then ⟨none, none, none⟩
  else ⟨some v.oHet, some v.eHet, some v.pHwe⟩

/-- Full per-variant Hardy kernel output row. -/
def hardyRow (gc : GenoCounts) (midp : Bool) : HardyRow :=
  hardyEmit (hardyCompute gc midp)

/-- One 2-bit genotype code as extracted by `word & 3` in `ComputeLdStats`:
`0 = hom-ref`, `1 = het`, `2 = hom-alt`, `3 = missing`. -/
abbrev Geno := Fin 4

/-- Running sums of `ComputeLdStats` over the shared non-missing samples. -/
structure LdAccum where
  sumA : ℚ
  sumB : ℚ
  sumAB : ℚ
  sumA2 : ℚ
  sumB2 : ℚ
  n : ℕ
deriving DecidableEq, Repr

/-- One iteration of the `ComputeLdStats` accumulation loop: skip the sample
if either call is missing (`== 3`), otherwise add the genotype values to the
six accumulators. -/
def ldStep (acc : LdAccum) (g : Geno × Geno) : LdAccum :=
  if g.1 = 3 ∨ g.2 = 3 then acc
  else
    let ga : ℚ := ((g.1 : ℕ) : ℚ)
    let gb : ℚ := ((g.2 : ℕ) : ℚ)
    ⟨acc.sumA + ga, acc.sumB + gb, acc.sumAB + ga * gb,
      acc.sumA2 + ga * ga, acc.sumB2 + gb * gb, acc.n + 1⟩

/-- Variance cutoff `1e-15` used by `ComputeLdStats`. -/
def ldEps : ℚ := 1 / 10 ^ 15

/-- Result of `ComputeLdStats` (`LdResult` in `src/plink_freq.cpp`). -/
structure LdResult where
  r2 : ℚ
  dPrime : ℚ
  obsCt : ℕ
  isValid : Bool
deriving DecidableEq, Repr

/-- `ComputeLdStats` (`src/plink_freq.cpp`): accumulate the six sums over
samples where neither call is missing, then return an invalid result when
`n < 2` or either variance is below `1e-15`; otherwise compute
`r² = cov²/(var_a·var_b)` and `D' = D/D_max` (`0` when `|D_max| < 1e-15`)
with `D = cov/4` and `D_max` the Weir (1979) genotype-level bound. -/
def computeLdStats (ga gb : List Geno) : LdResult :=
  let acc := (ga.zip gb).foldl ldStep ⟨0, 0, 0, 0, 0, 0⟩
  if acc.n < 2 then ⟨0, 0, acc.n, false⟩
  else
    let dn : ℚ := (acc.n : ℚ)
    let meanA := acc.sumA / dn
    let meanB := acc.sumB / dn
    let cov := acc.sumAB / dn - meanA * meanB
    let varA := acc.sumA2 / dn - meanA * meanA
    let varB := acc.sumB2 / dn - meanB * meanB
    if varA < ldEps ∨ varB < ldEps then ⟨0, 0, acc.n, false⟩
    else
      let d := cov / 4
      let pA := acc.sumA / (2 * dn)
      let pB := acc.sumB / (2 * dn)
      let dMax := if 0 ≤ d then min (pA * (1 - pB)) ((1 - pA) * pB)
        else max (-(pA * pB)) (-((1 - pA) * (1 - pB)))
      let dp := if |dMax| < ldEps then 0 else d / dMax
      ⟨cov * cov / (varA * varB), dp, acc.n, true⟩

/-- Emission of `R2`/`D_PRIME`/`OBS_CT` by `EmitRow` (`src/plink_freq.cpp`):
`R2` and `D_PRIME` are written null when the result is invalid; `OBS_CT` is
always written. -/
def ldEmit (r : LdResult) : Option ℚ × Option ℚ × ℕ :=
  if r.isValid then (some r.r2, some r.dPrime, r.obsCt)
  else (none, none, r.obsCt)

/-- Specification-side predicate: neither call of the sample pair is
missing. -/
def ldKeep (g : Geno × Geno) : Bool :=
  if g.1 = 3 ∨ g.2 = 3 then false else true

/-- Specification-side list of sample pairs where neither call is missing. -/
def ldPairs (ga gb : List Geno) : List (Geno × Geno) :=
  (ga.zip gb).filter ldKeep

/-- Specification-side shared observation count `n`. -/
def ldObs (ga gb : List Geno) : ℕ := (ldPairs ga gb).length

/-- Specification-side `Σ g_a` over shared non-missing samples. -/
def ldSumA (ga gb : List Geno) : ℚ :=
  ((ldPairs ga gb).map fun g => ((g.1 : ℕ) : ℚ)).sum

/-- Specification-side `Σ g_b` over shared non-missing samples. -/
def ldSumB (ga gb : List Geno) : ℚ :=
  ((ldPairs ga gb).map fun g => ((g.2 : ℕ) : ℚ)).sum

/-- Specification-side `Σ g_a·g_b` over shared non-missing samples. -/
def ldSumAB (ga gb : List Geno) : ℚ :=
  ((ldPairs ga gb).map fun g => ((g.1 : ℕ) : ℚ) * ((g.2 : ℕ) : ℚ)).sum

/-- Specification-side `Σ g_a²` over shared non-missing samples. -/
def ldSumA2 (ga gb : List Geno) : ℚ :=
  ((ldPairs ga gb).map fun g => ((g.1 : ℕ) : ℚ) * ((g.1 : ℕ) : ℚ)).sum

/-- Specification-side `Σ g_b²` over shared non-missing samples. -/
def ldSumB2 (ga gb : List Geno) : ℚ :=
  ((ldPairs ga gb).map fun g => ((g.2 : ℕ) : ℚ) * ((g.2 : ℕ) : ℚ)).sum

/-- Specification-side sample variance of the first variant. -/
def ldVarA (ga gb : List Geno) : ℚ :=
  ldSumA2 ga gb / (ldObs ga gb : ℚ) -
    (ldSumA ga gb / (ldObs ga gb : ℚ)) * (ldSumA ga gb / (ldObs ga gb : ℚ))

/-- Specification-side sample variance of the second variant. -/
def ldVarB (ga gb : List Geno) : ℚ :=
  ldSumB2 ga gb / (ldObs ga gb : ℚ) -
    (ldSumB ga gb / (ldObs ga gb : ℚ)) * (ldSumB ga gb / (ldObs ga gb : ℚ))

/-- Specification-side covariance. -/
def ldCov (ga gb : List Geno) : ℚ :=
  ldSumAB ga gb / (ldObs ga gb : ℚ) -
    (ldSumA ga gb / (ldObs ga gb : ℚ)) * (ldSumB ga gb / (ldObs ga gb : ℚ))

/-- Specification-side `D_max` bound. -/
def ldDmax (ga gb : List Geno) : ℚ :=
  let pA := ldSumA ga gb / (2 * (ldObs ga gb : ℚ))
  let pB := ldSumB ga gb / (2 * (ldObs ga gb : ℚ))
  if 0 ≤ ldCov ga gb / 4 then min (pA * (1 - pB)) ((1 - pA) * pB)
  else max (-(pA * pB)) (-((1 - pA) * (1 - pB)))

/-- Variant metadata record used by the LD windowed scan: chromosome name
and 1-based base-pair position. -/
structure Variant where
  chrom : String
  pos : Int
deriving DecidableEq, Repr

/-- Chromosome of variant `i` (`variants.GetChrom(i)`). -/
def chromAt (vs : List Variant) (i : ℕ) : String :=
  (vs.getD i ⟨"", 0⟩).chrom

/-- Position of variant `i` (`variants.GetPos(i)`). -/
def posAt (vs : List Variant) (i : ℕ) : Int :=
  (vs.getD i ⟨"", 0⟩).pos

/-- Genotype vector of variant `i` (`ReadGenovec`). -/
def genoAt (genos : List (List Geno)) (i : ℕ) : List Geno :=
  genos.getD i []

/-- Skip loop of `PlinkLdScan`'s windowed mode
(`while (j < end && chrom j == anchor_chrom) j++`), modelled with a fuel
bound on the iteration count. -/
def skipChrom (vs : List Variant) (c : String) (endIdx : ℕ) : ℕ → ℕ → ℕ
  | 0, j => j
  | fuel + 1, j =>
    if j < endIdx ∧ chromAt vs j = c then skipChrom vs c endIdx fuel (j + 1) else j

/-- Partner emission step of `PlinkLdScan`'s windowed mode: compute the LD
statistics and emit the pair `(anchor, j)` iff the result is valid and
`r² ≥ r2_threshold`. -/
def ldEmitPair (genos : List (List Geno)) (thr : ℚ) (ai j : ℕ) : List (ℕ × ℕ) :=
  if (computeLdStats (genoAt genos ai) (genoAt genos j)).isValid = true ∧
      thr ≤ (computeLdStats (genoAt genos ai) (genoAt genos j)).r2 then
    [(ai, j)]
  else []

/-- Inner partner loop of `PlinkLdScan`'s windowed mode
(`src/plink_freq.cpp`, `while (j < end_idx)` body): on the anchor's
chromosome a partner beyond the window breaks the loop (or, with
`inter_chr`, skips the rest of the chromosome block); a partner on a
different chromosome breaks unless `inter_chr`; otherwise the pair is
computed, emitted when it passes the threshold, and `j` advances by one.
Fuel bounds the iteration count (each step advances `j` by at least one, so
`endIdx` fuel suffices from any start). -/
def ldInner (vs : List Variant) (genos : List (List Geno)) (windowBp : ℤ) (thr : ℚ)
    (interChr : Bool) (endIdx ai : ℕ) (aChrom : String) (aPos : Int) :
    ℕ → ℕ → List (ℕ × ℕ)
  | 0, _ => []
  | fuel + 1, j =>
    if j < endIdx then
      if chromAt vs j = aChrom then
        if windowBp < posAt vs j - aPos then
          if interChr then
            ldInner vs genos windowBp thr interChr endIdx ai aChrom aPos fuel
              (skipChrom vs aChrom endIdx endIdx (j + 1))
          else []
        else
          ldEmitPair genos thr ai j ++
            ldInner vs genos windowBp thr interChr endIdx ai aChrom aPos fuel (j + 1)
      else
        if interChr then
          ldEmitPair genos thr ai j ++
            ldInner vs genos windowBp thr interChr endIdx ai aChrom aPos fuel (j + 1)
        else []
    else []

/-- Anchor loop of `PlinkLdScan`'s windowed mode: claim anchors
`startIdx, startIdx+1, ...` in order, and for each anchor run the inner
partner loop from `anchor + 1`. This models the single-threaded scan with
unbounded output capacity (the resumable cursor only splits this sequence
across scan calls without changing it). -/
def ldWindowedFrom (vs : List Variant) (genos : List (List Geno)) (windowBp : ℤ)
    (thr : ℚ) (interChr : Bool) (endIdx : ℕ) : ℕ → ℕ → List (ℕ × ℕ)
  | 0, _ => []
  | fuel + 1, a =>
    if a < endIdx then
      ldInner vs genos windowBp thr interChr endIdx a (chromAt vs a) (posAt vs a)
          endIdx (a + 1) ++
        ldWindowedFrom vs genos windowBp thr interChr endIdx fuel (a + 1)
    else []

/-- All pairs emitted by the windowed LD scan over `[startIdx, endIdx)`. -/
def ldWindowedPairs (vs : List Variant) (genos : List (List Geno)) (windowBp : ℤ)
    (thr : ℚ) (interChr : Bool) (startIdx endIdx : ℕ) : List (ℕ × ℕ) :=
  ldWindowedFrom vs genos windowBp thr interChr endIdx (endIdx - startIdx) startIdx

/-- Ordering guarantee of the data model: variants with equal chromosome
form a single contiguous block, and positions are non-decreasing within a
block. -/
def ChromBlocksOrdered (vs : List Variant) : Prop :=
  (∀ i j k, i ≤ j → j ≤ k → k < vs.length →
    chromAt vs i = chromAt vs k → chromAt vs j = chromAt vs i) ∧
  (∀ i j, i ≤ j → j < vs.length →
    chromAt vs i = chromAt vs j → posAt vs i ≤ posAt vs j)

/-- Two-variant fixture: same chromosome, identical positions. -/
def ldDemoVs : List Variant := [⟨"1", 100⟩, ⟨"1", 100⟩]

/-- Genotypes for the fixture: both variants polymorphic and identical. -/
def ldDemoGenos : List (List Geno) := [[0, 2], [0, 2]]

/-- Whitespace recognized by `strtol` when skipping the leading prefix of a
numeric field. -/
def isSpaceChar (c : Char) : Bool :=
  c = ' ' ∨ c = '\t' ∨ c = '\n' ∨ c = '\x0b' ∨ c = '\x0c' ∨ c = '\r'

/-- Decimal digit test used by the `strtol` model. -/
def isDigitChar (c : Char) : Bool :=
  '0' ≤ c ∧ c ≤ '9'

/-- Accumulate the value of a decimal digit string. -/
def natFromDigits : List Char → ℕ → ℕ
  | [], acc => acc
  | c :: rest, acc => natFromDigits rest (acc * 10 + (c.toNat - '0'.toNat))

/-- Parse a full non-empty digit string, or fail. Combined with the
`*parse_end != '\0'` check of `ParseRegion`, `strtol` accepts a bound
exactly when the remainder after whitespace and sign is a non-empty run of
digits with nothing following. -/
def parseNatAll (l : List Char) : Option ℕ :=
  if l ≠ [] ∧ l.all isDigitChar then some (natFromDigits l 0) else none

/-- `LONG_MAX` on the LP64 platforms the extension targets (`long` is 64
bits). -/
def longMax : ℤ := 2 ^ 63 - 1

/-- `LONG_MIN` on the same platforms. -/
def longMin : ℤ := -(2 ^ 63)

/-- Model of the `strtol`-based bound parsing in `ParseRegion`
(`src/plink_common.cpp` / `src/plink_score.cpp` region blocks): skip
leading whitespace, accept one optional sign, then require a non-empty
all-digit remainder (`parse_end == c_str()` rejects an empty conversion and
`*parse_end != '\0'` rejects trailing garbage). A value outside
`[LONG_MIN, LONG_MAX]` makes `strtol` set `errno = ERANGE`, which
`ParseRegion`'s `errno != 0` check turns into the same
`InvalidInputException`, so overflow is folded into the `none` outcome. -/
def parseLong (s : List Char) : Option Int :=
  match s.dropWhile isSpaceChar with
  | [] => none
  | c :: rest =>
    if c = '+' then
      (parseNatAll rest).bind fun n =>
        if longMax < (n : ℤ) then none else some ((n : ℕ) : ℤ)
    else if c = '-' then
      (parseNatAll rest).bind fun n =>
        if (-(n : ℤ)) < longMin then none else some (-((n : ℕ) : ℤ))
    else
      (parseNatAll (c :: rest)).bind fun n =>
        if longMax < (n : ℤ) then none else some ((n : ℕ) : ℤ)

/-- Narrowing conversion `static_cast<int32_t>` applied by both
`ParseRegion` overloads to the parsed `long` bounds at every position
comparison (`variants.positions[i] >= static_cast<int32_t>(start_pos)`
etc.): two's-complement wrap modulo `2^32`. -/
def toInt32 (x : Int) : Int :=
  (x + 2 ^ 31) % 2 ^ 32 - 2 ^ 31

/-- Split a character list at the first occurrence of `ch`
(`string::find`), returning the parts before and after it. -/
def splitFirst (ch : Char) : List Char → Option (List Char × List Char)
  | [] => none
  | c :: rest =>
    if c = ch then some ([], rest)
    else
      match splitFirst ch rest with
      | none => none
      | some (l, r) => some (c :: l, r)

/-- Syntactic part of both `ParseRegion` overloads (the two copies in
`src/plink_score.cpp` are textually identical): find the first `':'`
(failing when absent or at position 0), find the first `'-'` in the
remainder (failing when absent), parse both bounds with `strtol`
(rejecting non-numeric, out-of-`long`-range, and negative values). The
returned bounds are the `static_cast<int32_t>` images of the parsed `long`
values, since that is how every position comparison in the scans consumes
them. -/
def parseRegionStr (s : String) : Option (String × Int × Int) :=
  match splitFirst ':' s.toList with
  | none => none
  | some (chromCs, rest) =>
    if chromCs = [] then none
    else
      match splitFirst '-' rest with
      | none => none
      | some (startCs, endCs) =>
        match parseLong startCs, parseLong endCs with
        | some lo, some hi =>
          if lo < 0 ∨ hi < 0 then none
          else some (⟨chromCs⟩, toInt32 lo, toInt32 hi)
        | some _, none => none
        | none, _ => none

/-- Parsed variant range (`VariantRange`, `src/include/plink_common.hpp`):
default-initialized to `start_idx = end_idx = 0`. -/
structure VariantRange where
  start_idx : ℕ
  end_idx : ℕ
  has_filter : Bool
deriving DecidableEq, Repr

/-- Outcome of `ParseRegion`: either a thrown `InvalidInputException` or a
returned range. -/
inductive RegionResult where
  | invalidInput : RegionResult
  | ok : VariantRange → RegionResult
deriving DecidableEq, Repr

/-- Match condition of both region scans:
`chrom == c && start ≤ pos && pos ≤ end`. -/
def matchesRegion (c : String) (lo hi : Int) (v : Variant) : Prop :=
  v.chrom = c ∧ lo ≤ v.pos ∧ v.pos ≤ hi

instance (c : String) (lo hi : Int) (v : Variant) :
    Decidable (matchesRegion c lo hi v) := by
  unfold matchesRegion
  infer_instance

/-- Scan loop of the eager `ParseRegion` overload over `VariantMetadata`
(`src/plink_score.cpp`, shared-code file, loop over `variants.variant_ct`):
visit every variant; at a match set `start_idx` on the first one and push
`end_idx` past the last one. The scan carries the running index `i` while
recursing structurally over the remaining variants. -/
def eagerScanAux (c : String) (lo hi : Int) :
    List Variant → ℕ → Bool → ℕ → ℕ → Bool × ℕ × ℕ
  | [], _, found, s, e => (found, s, e)
  | v :: rest, i, found, s, e =>
    if matchesRegion c lo hi v then
      eagerScanAux c lo hi rest (i + 1) true (if found then s else i) (i + 1)
    else
      eagerScanAux c lo hi rest (i + 1) found s e

/-- Scan loop of the offset-indexed `ParseRegion` overload over
`VariantMetadataIndex` (`src/plink_score.cpp`): same match updates, plus
two early exits — past the matching chromosome block once a match was
found, and past the position range within the chromosome. -/
def idxScanAux (c : String) (lo hi : Int) :
    List Variant → ℕ → Bool → ℕ → ℕ → Bool × ℕ × ℕ
  | [], _, found, s, e => (found, s, e)
  | v :: rest, i, found, s, e =>
    if v.chrom ≠ c then
      if found then (found, s, e)
      else idxScanAux c lo hi rest (i + 1) found s e
    else if lo ≤ v.pos ∧ v.pos ≤ hi then
      idxScanAux c lo hi rest (i + 1) true (if found then s else i) (i + 1)
    else if found ∧ hi < v.pos then (found, s, e)
    else idxScanAux c lo hi rest (i + 1) found s e

/-- Eager `ParseRegion` over the parsed columnar metadata. -/
def parseRegionEager (regionStr : String) (vs : List Variant) : RegionResult :=
  match parseRegionStr regionStr with
  | none => RegionResult.invalidInput
  | some (c, lo, hi) =>
    let r := eagerScanAux c lo hi vs 0 false 0 0
    RegionResult.ok ⟨r.2.1, r.2.2, true⟩

/-- Offset-indexed `ParseRegion` over the on-demand metadata index. -/
def parseRegionIdx (regionStr : String) (vs : List Variant) : RegionResult :=
  match parseRegionStr regionStr with
  | none => RegionResult.invalidInput
  | some (c, lo, hi) =>
    let r := idxScanAux c lo hi vs 0 false 0 0
    RegionResult.ok ⟨r.2.1, r.2.2, true⟩

/-- One resolved scoring entry (`ScoredVariant`, `src/plink_score.cpp`). -/
structure ScoredVariant where
  variant_idx : ℕ
  weight : ℚ
  flip : Bool
deriving DecidableEq, Repr

/-- Outcome of processing the `weights` parameter in `PlinkScoreBind`. -/
inductive BindResult where
  | invalidInput : BindResult
  | ok : List ScoredVariant → BindResult
deriving DecidableEq, Repr

/-- Build loop of the positional weights mode (`PlinkScoreBind`,
`src/plink_score.cpp`): for each index `i`, push
`{range_start + i, w_i, flip = false}` when `w_i != 0.0`. -/
def buildPositional (rangeStart : ℕ) : List ℚ → ℕ → List ScoredVariant
  | [], _ => []
  | w :: rest, i =>
    if w ≠ 0 then ⟨rangeStart + i, w, false⟩ :: buildPositional rangeStart rest (i + 1)
    else buildPositional rangeStart rest (i + 1)

/-- Positional-weights processing of `PlinkScoreBind`
(`src/plink_score.cpp`): an empty weights list is rejected before the mode
dispatch (`"plink_score: weights list is empty"`); then the length must
equal `range_end - range_start`; otherwise the scored-variants list is
built with zero weights omitted and `flip = false` throughout. -/
def plinkScoreBindPositional (ws : List ℚ) (rangeStart rangeEnd : ℕ) : BindResult :=
  if ws = [] then .invalidInput
  else if ws.length ≠ rangeEnd - rangeStart then .invalidInput
  else .ok (buildPositional rangeStart ws 0)

/-- Non-sentinel test of `PerformScoring`: `dosage_doubles[s] != -9.0`. -/
def notMissing (d : ℚ) : Bool :=
  if d = -9 then false else true

/-- Per-sample accumulators of the score kernel
(`PlinkScoreGlobalState`): `score_sums`, `named_allele_dosage_sums`,
`allele_cts`, indexed by effective sample. -/
structure ScoreAcc where
  scoreSums : List ℚ
  namedSums : List ℚ
  alleleCts : List ℕ
deriving DecidableEq, Repr

/-- Default-mode (mean imputation) processing of one scored variant in
`PerformScoring` (`src/plink_score.cpp`): compute `sum_alt` and
`non_missing_ct` over non-sentinel entries; skip the variant when all are
missing; otherwise for every sample `s` impute `-9` with
`mean_alt = sum_alt/non_missing_ct`, flip to `2 - alt` when `flip`, and
update `score_sum[s] += weight*scored`, `named_allele_sum[s] += scored`,
`allele_ct[s] += 2`. -/
def scoreVariantDefault (dosages : List ℚ) (w : ℚ) (flip : Bool)
    (acc : ScoreAcc) : ScoreAcc :=
  let sumAlt := (dosages.filter notMissing).sum
  let nonMissingCt := (dosages.filter notMissing).length
  if nonMissingCt = 0 then acc
  else
    let meanAlt := sumAlt / (nonMissingCt : ℚ)
    { scoreSums := (dosages.zip acc.scoreSums).map fun p =>
        p.2 + w * (if flip then 2 - (if p.1 = -9 then meanAlt else p.1)
          else (if p.1 = -9 then meanAlt else p.1)),
      namedSums := (dosages.zip acc.namedSums).map fun p =>
        p.2 + (if flip then 2 - (if p.1 = -9 then meanAlt else p.1)
          else (if p.1 = -9 then meanAlt else p.1)),
      alleleCts := acc.alleleCts.map fun n => n + 2 }

/-- Set-bit iteration of one variant's missingness bitmask in phase A of
`PlinkMissingScanSample` (`src/plink_missing.cpp`): walk the bit positions
in increasing order and increment `sample_missing_counts[sample_idx]` for
every set bit with `sample_idx < sample_ct` (the guard skips the bitmask's
padding bits). A clear bit leaves the counters unchanged, so iterating all
positions is the same as iterating only set bits. -/
def applyMaskAux (sampleCt : ℕ) : List Bool → ℕ → List ℕ → List ℕ
  | [], _, cs => cs
  | b :: rest, i, cs =>
    applyMaskAux sampleCt rest (i + 1)
      (if b = true ∧ i < sampleCt then cs.set i (cs.getD i 0 + 1) else cs)

/-- Phase A of `PlinkMissingScanSample`: scan every variant of the range,
accumulating the per-sample missing counters (initialized to zero over the
effective samples). The missingness masks of the scanned variants are the
list `masks`, so `masks.length` is `total_variant_ct`. -/
def phaseA (sampleCt : ℕ) (masks : List (List Bool)) : List ℕ :=
  masks.foldl (fun cs m => applyMaskAux sampleCt m 0 cs) (List.replicate sampleCt 0)

/-- Phase B row emission of `PlinkMissingScanSample`:
`missing_ct = sample_missing_counts[sidx]` and
`obs_ct = total_variant_ct - missing_ct`. -/
def sampleMissingRow (counts : List ℕ) (totalVariantCt sidx : ℕ) : ℕ × ℕ :=
  (counts.getD sidx 0, totalVariantCt - counts.getD sidx 0)

/-- C1: for every variant processed by the frequency kernel with genotype
counts `[hom_ref, het, hom_alt, missing]`, the emitted `OBS_CT` equals
`2*(hom_ref+het+hom_alt)`; `ALT_FREQ` is null when
`hom_ref+het+hom_alt == 0`, and otherwise equals
`(het + 2*hom_alt) / (2*(hom_ref+het+hom_alt))`. -/
theorem freq_kernel_spec (gc : GenoCounts) :
    (freqKernel gc).obsCt = 2 * (gc.homRef + gc.het + gc.homAlt) ∧
    (gc.homRef + gc.het + gc.homAlt = 0 → (freqKernel gc).altFreq = none) ∧
    (gc.homRef + gc.het + gc.homAlt ≠ 0 →
      (freqKernel gc).altFreq =
        some (((gc.het : ℚ) + 2 * (gc.homAlt : ℚ)) /
          (2 * ((gc.homRef + gc.het + gc.homAlt : ℕ) : ℚ)))) := by
  unfold freqKernel
  by_cases h : gc.homRef + gc.het + gc.homAlt = 0 <;> simp [h]

/-- Witness for C1 at the concrete counts `(1, 1, 1, 1)` (fixture variant v1:
`obs_ct = 6`, `alt_freq = 1/2`). -/
theorem freq_kernel_spec_witness :
    (freqKernel ⟨1, 1, 1, 1⟩).obsCt = 6 ∧
    (freqKernel ⟨1, 1, 1, 1⟩).altFreq =
      some (((1 : ℚ) + 2 * (1 : ℚ)) / (2 * ((3 : ℕ) : ℚ))) := by
  refine ⟨(freq_kernel_spec ⟨1, 1, 1, 1⟩).1, ?_⟩
  exact (freq_kernel_spec ⟨1, 1, 1, 1⟩).2.2 (by decide)

theorem clamp01_nonneg (q : ℚ) : 0 ≤ clamp01 q := by
  unfold clamp01
  split
  · exact le_refl 0
  · split
    · exact zero_le_one
    · linarith [not_lt.mp (by assumption : ¬ q < 0)]

theorem clamp01_le_one (q : ℚ) : clamp01 q ≤ 1 := by
  unfold clamp01
  split
  · exact zero_le_one
  · split
    · exact le_refl 1
    · exact not_lt.mp (by assumption)

theorem hweExactTest_nonneg (h1 hets h2 : ℕ) (midp : Bool) :
    0 ≤ hweExactTest h1 hets h2 midp := by
  unfold hweExactTest
  split
  · exact zero_le_one
  · exact clamp01_nonneg _

theorem hweExactTest_le_one (h1 hets h2 : ℕ) (midp : Bool) :
    hweExactTest h1 hets h2 midp ≤ 1 := by
  unfold hweExactTest
  split
  · exact le_refl 1
  · exact clamp01_le_one _

/-- C10: the HWE exact test is symmetric in its two homozygote arguments. -/
theorem hwe_exact_test_symm (h1 hets h2 : ℕ) (midp : Bool) :
    hweExactTest h1 hets h2 midp = hweExactTest h2 hets h1 midp := by
  unfold hweExactTest
  rw [Nat.max_comm h2 h1, Nat.min_comm h2 h1,
    show h2 + hets + h1 = h1 + hets + h2 by omega]

/-- C2, counterexample: for an all-missing variant (counts `(0,0,0,4)`), the
Hardy kernel emits `P_HWE` as null, not `1.0` — the claim's "outputs
p_hwe = 1.0 for that row" is false at the output level. -/
theorem hardy_all_missing_counterexample :
    (hardyRow ⟨0, 0, 0, 4⟩ false).pHwe = none ∧
    (hardyRow ⟨0, 0, 0, 4⟩ false).pHwe ≠ some 1 := by
  constructor
  · rfl
  · intro h
    simp [hardyRow, hardyCompute, hardyEmit] at h

/-- C2 (amended): for every variant whose effective samples are all missing,
the Hardy kernel emits all three statistics (`O_HET`, `E_HET`, and `P_HWE`)
as null, while the internally computed `p_hwe` value is `1.0`; and for every
variant with at least one observed sample the emitted `p_hwe` equals
`HweExactTest` on the counts and satisfies `0 ≤ p_hwe ≤ 1`. -/
theorem hardy_row_spec (gc : GenoCounts) (midp : Bool) :
    (gc.obsSampleCt = 0 →
      hardyRow gc midp = ⟨none, none, none⟩ ∧ (hardyCompute gc midp).pHwe = 1) ∧
    (gc.obsSampleCt ≠ 0 →
      (hardyRow gc midp).pHwe = some (hweExactTest gc.homRef gc.het gc.homAlt midp) ∧
      ∀ q, (hardyRow gc midp).pHwe = some q → 0 ≤ q ∧ q ≤ 1) := by
  unfold GenoCounts.obsSampleCt hardyRow hardyCompute hardyEmit
  by_cases h : gc.homRef + gc.het + gc.homAlt = 0
  · simp [h]
  · refine ⟨fun hc => absurd hc h, fun _ => ⟨by simp [h], fun q hq => ?_⟩⟩
    simp [h] at hq
    rw [← hq]
    exact ⟨hweExactTest_nonneg _ _ _ _, hweExactTest_le_one _ _ _ _⟩

/-- Witness for C2 at the concrete counts `(1, 1, 1, 0)`. -/
theorem hardy_row_spec_witness :
    (hardyRow ⟨1, 1, 1, 0⟩ false).pHwe = some (hweExactTest 1 1 1 false) ∧
    0 ≤ hweExactTest 1 1 1 false ∧ hweExactTest 1 1 1 false ≤ 1 := by
  have h := (hardy_row_spec ⟨1, 1, 1, 0⟩ false).2 (by decide)
  exact ⟨h.1, h.2 _ h.1⟩

theorem ldFold_eq (l : List (Geno × Geno)) (z : LdAccum) :
    l.foldl ldStep z =
      ⟨z.sumA + ((l.filter ldKeep).map fun g => ((g.1 : ℕ) : ℚ)).sum,
       z.sumB + ((l.filter ldKeep).map fun g => ((g.2 : ℕ) : ℚ)).sum,
       z.sumAB + ((l.filter ldKeep).map
          fun g => ((g.1 : ℕ) : ℚ) * ((g.2 : ℕ) : ℚ)).sum,
       z.sumA2 + ((l.filter ldKeep).map
          fun g => ((g.1 : ℕ) : ℚ) * ((g.1 : ℕ) : ℚ)).sum,
       z.sumB2 + ((l.filter ldKeep).map
          fun g => ((g.2 : ℕ) : ℚ) * ((g.2 : ℕ) : ℚ)).sum,
       z.n + (l.filter ldKeep).length⟩ := by
  induction l generalizing z with
  | nil => simp
  | cons g rest ih =>
    by_cases hg : g.1 = 3 ∨ g.2 = 3
    · have hstep : ldStep z g = z := by simp [ldStep, hg]
      rw [List.foldl_cons, hstep, List.filter_cons,
        if_neg (by simp [ldKeep, hg]), ih]
    · have hstep : ldStep z g =
          ⟨z.sumA + ((g.1 : ℕ) : ℚ), z.sumB + ((g.2 : ℕ) : ℚ),
            z.sumAB + ((g.1 : ℕ) : ℚ) * ((g.2 : ℕ) : ℚ),
            z.sumA2 + ((g.1 : ℕ) : ℚ) * ((g.1 : ℕ) : ℚ),
            z.sumB2 + ((g.2 : ℕ) : ℚ) * ((g.2 : ℕ) : ℚ), z.n + 1⟩ := by
        simp [ldStep, hg]
      rw [List.foldl_cons, hstep, List.filter_cons,
        if_pos (by simp [ldKeep, hg]), ih]
      simp only [List.map_cons, List.sum_cons, List.length_cons,
        LdAccum.mk.injEq]
      refine ⟨by ring, by ring, by ring, by ring, by ring, by omega⟩

theorem ldFold_spec (ga gb : List Geno) :
    (ga.zip gb).foldl ldStep ⟨0, 0, 0, 0, 0, 0⟩ =
      ⟨ldSumA ga gb, ldSumB ga gb, ldSumAB ga gb,
        ldSumA2 ga gb, ldSumB2 ga gb, ldObs ga gb⟩ := by
  rw [ldFold_eq]
  simp only [zero_add]
  rfl

/-- C3: `ComputeLdStats` accumulates its sums only over samples where
neither call is missing (count `n = obs_ct`); the result is invalid (`R2`
and `D_PRIME` emitted null) exactly when `n < 2` or either variance is below
`1e-15`; otherwise `r² = cov²/(var_a·var_b)` and `D' = 0` when
`|D_max| < 1e-15`, else `D' = D/D_max` with `D = cov/4`. -/
theorem compute_ld_stats_spec (ga gb : List Geno) :
    (computeLdStats ga gb).obsCt = ldObs ga gb ∧
    ((computeLdStats ga gb).isValid = false ↔
      ldObs ga gb < 2 ∨ ldVarA ga gb < ldEps ∨ ldVarB ga gb < ldEps) ∧
    ((ldEmit (computeLdStats ga gb)).1 = none ↔
      ldObs ga gb < 2 ∨ ldVarA ga gb < ldEps ∨ ldVarB ga gb < ldEps) ∧
    ((computeLdStats ga gb).isValid = true →
      (computeLdStats ga gb).r2 =
        ldCov ga gb * ldCov ga gb / (ldVarA ga gb * ldVarB ga gb) ∧
      (computeLdStats ga gb).dPrime =
        (if |ldDmax ga gb| < ldEps then 0 else ldCov ga gb / 4 / ldDmax ga gb)) := by
  unfold computeLdStats
  rw [ldFold_spec]
  by_cases h2 : ldObs ga gb < 2
  · simp [h2, ldEmit]
  · rw [if_neg h2]
    by_cases hv : ldVarA ga gb < ldEps ∨ ldVarB ga gb < ldEps
    · rw [if_pos (by exact hv)]
      simp [h2, hv, ldEmit]
    · rw [if_neg (by exact hv)]
      refine ⟨rfl, by simp [h2, hv], by simp [ldEmit, h2, hv], fun _ => ⟨?_, ?_⟩⟩
      · show _ = ldCov ga gb * ldCov ga gb / (ldVarA ga gb * ldVarB ga gb)
        unfold ldCov ldVarA ldVarB
        rfl
      · show _ = (if |ldDmax ga gb| < ldEps then 0 else ldCov ga gb / 4 / ldDmax ga gb)
        unfold ldDmax ldCov
        rfl

/-- Witness for C3 at two identical polymorphic genotype vectors `[0, 2]`:
the result is valid with `r² = cov²/(var·var)`. -/
theorem compute_ld_stats_spec_witness :
    (computeLdStats [0, 2] [0, 2]).obsCt = ldObs [0, 2] [0, 2] ∧
    (computeLdStats [0, 2] [0, 2]).r2 =
      ldCov [0, 2] [0, 2] * ldCov [0, 2] [0, 2] /
        (ldVarA [0, 2] [0, 2] * ldVarB [0, 2] [0, 2]) := by
  have hvalid : (computeLdStats [0, 2] [0, 2]).isValid = true := by
    have hp : ldPairs [0, 2] [0, 2] = [(0, 0), (2, 2)] := rfl
    unfold computeLdStats
    rw [ldFold_spec]
    norm_num [ldObs, ldSumA, ldSumA2, ldSumB, ldSumB2, ldSumAB, hp, ldEps]
  refine ⟨(compute_ld_stats_spec [0, 2] [0, 2]).1, ?_⟩
  exact ((compute_ld_stats_spec [0, 2] [0, 2]).2.2.2 hvalid).1

theorem computeLdStats_demo : computeLdStats [0, 2] [0, 2] = ⟨1, 1, 2, true⟩ := by
  have hp : ldPairs [0, 2] [0, 2] = [(0, 0), (2, 2)] := rfl
  have habs : |(1 : ℚ) / 4| = 1 / 4 := abs_of_nonneg (by norm_num)
  unfold computeLdStats
  rw [ldFold_spec]
  norm_num [ldObs, ldSumA, ldSumA2, ldSumB, ldSumB2, ldSumAB, hp, ldEps, habs]

theorem ldDemo_eval :
    ldWindowedPairs ldDemoVs ldDemoGenos 0 (1 / 5) false 0 2 = [(0, 1)] := by
  simp [ldWindowedPairs, ldWindowedFrom, ldInner, ldEmitPair, genoAt,
    chromAt, posAt, ldDemoVs, ldDemoGenos, computeLdStats_demo]
  norm_num

/-- C4, counterexample: with `window_bp = 0` and `inter_chr = false`, the
windowed scan does emit a same-chromosome pair when two variants of one
chromosome share a position (allowed by the non-decreasing ordering
guarantee): on the two-variant fixture the scan outputs the pair `(0, 1)`,
both variants on chromosome `"1"`. -/
theorem ld_window_zero_counterexample :
    ldWindowedPairs ldDemoVs ldDemoGenos 0 (1 / 5) false 0 2 = [(0, 1)] ∧
    chromAt ldDemoVs 0 = chromAt ldDemoVs 1 ∧
    ChromBlocksOrdered ldDemoVs := by
  refine ⟨ldDemo_eval, rfl, ?_, ?_⟩
  · intro i j k hij hjk hk hik
    have hk2 : k < 2 := by simpa [ldDemoVs] using hk
    interval_cases k <;> interval_cases j <;> interval_cases i <;> rfl
  · intro i j hij hj hc
    have hj2 : j < 2 := by simpa [ldDemoVs] using hj
    interval_cases j <;> interval_cases i <;> norm_num [posAt, ldDemoVs]

theorem ldInner_zero_mem (vs : List Variant) (genos : List (List Geno)) (thr : ℚ)
    (endIdx ai : ℕ) (aChrom : String) (aPos : Int) :
    ∀ fuel j p, p ∈ ldInner vs genos 0 thr false endIdx ai aChrom aPos fuel j →
      p.1 = ai ∧ j ≤ p.2 ∧ p.2 < endIdx ∧ chromAt vs p.2 = aChrom ∧
        posAt vs p.2 ≤ aPos := by
  intro fuel
  induction fuel with
  | zero => intro j p hp; simp [ldInner] at hp
  | succ fuel ih =>
    intro j p hp
    rw [ldInner] at hp
    by_cases hj : j < endIdx
    · rw [if_pos hj] at hp
      by_cases hc : chromAt vs j = aChrom
      · rw [if_pos hc] at hp
        by_cases hd : (0 : ℤ) < posAt vs j - aPos
        · rw [if_pos hd] at hp
          simp at hp
        · rw [if_neg hd] at hp
          rcases List.mem_append.mp hp with hp1 | hp2
          · unfold ldEmitPair at hp1
            split at hp1
            · rcases List.mem_singleton.mp hp1 with rfl
              exact ⟨rfl, le_refl j, hj, hc, by show posAt vs j ≤ aPos; omega⟩
            · simp at hp1
          · obtain ⟨h1, h2, h3, h4, h5⟩ := ih (j + 1) p hp2
            exact ⟨h1, by omega, h3, h4, h5⟩
      · rw [if_neg hc] at hp
        simp at hp
    · rw [if_neg hj] at hp
      simp at hp

theorem ldWindowedFrom_zero_mem (vs : List Variant) (genos : List (List Geno))
    (thr : ℚ) (endIdx : ℕ) :
    ∀ fuel a p, p ∈ ldWindowedFrom vs genos 0 thr false endIdx fuel a →
      a ≤ p.1 ∧ p.1 < p.2 ∧ p.2 < endIdx ∧ chromAt vs p.2 = chromAt vs p.1 ∧
        posAt vs p.2 ≤ posAt vs p.1 := by
  intro fuel
  induction fuel with
  | zero => intro a p hp; simp [ldWindowedFrom] at hp
  | succ fuel ih =>
    intro a p hp
    rw [ldWindowedFrom] at hp
    by_cases ha : a < endIdx
    · rw [if_pos ha] at hp
      rcases List.mem_append.mp hp with hp1 | hp2
      · obtain ⟨h1, h2, h3, h4, h5⟩ :=
          ldInner_zero_mem vs genos thr endIdx a (chromAt vs a) (posAt vs a)
            endIdx (a + 1) p hp1
        exact ⟨le_of_eq h1.symm, by omega, h3, by rw [h1]; exact h4,
          by rw [h1]; exact h5⟩
      · obtain ⟨h1, h2, h3, h4, h5⟩ := ih (a + 1) p hp2
        exact ⟨by omega, h2, h3, h4, h5⟩
    · rw [if_neg ha] at hp
      simp at hp

/-- C4 (amended): with `window_kb = 0` (so `window_bp = 0`) and
`inter_chr = false`, every pair emitted by the windowed LD scan over a
variant table satisfying the data model's ordering guarantee joins two
variants of the same chromosome at the same position; in particular no pair
with a strictly positive distance is emitted, and when positions within a
chromosome block are strictly increasing no same-chromosome pair is emitted
at all. -/
theorem ld_window_zero_spec (vs : List Variant) (genos : List (List Geno)) (thr : ℚ)
    (startIdx endIdx : ℕ) (hend : endIdx ≤ vs.length)
    (hord : ChromBlocksOrdered vs) :
    ∀ p ∈ ldWindowedPairs vs genos 0 thr false startIdx endIdx,
      chromAt vs p.1 = chromAt vs p.2 ∧ posAt vs p.1 = posAt vs p.2 := by
  intro p hp
  obtain ⟨-, hlt, hend2, hchrom, hpos⟩ :=
    ldWindowedFrom_zero_mem vs genos thr endIdx (endIdx - startIdx) startIdx p hp
  have h1 : posAt vs p.1 ≤ posAt vs p.2 :=
    hord.2 p.1 p.2 (le_of_lt hlt) (lt_of_lt_of_le hend2 hend) hchrom.symm
  exact ⟨hchrom.symm, le_antisymm h1 hpos⟩

/-- Witness for C4 on the two-variant fixture: the emitted pair `(0, 1)` has
equal chromosome and equal positions. -/
theorem ld_window_zero_spec_witness :
    chromAt ldDemoVs 0 = chromAt ldDemoVs 1 ∧ posAt ldDemoVs 0 = posAt ldDemoVs 1 := by
  have hord : ChromBlocksOrdered ldDemoVs := by
    constructor
    · intro i j k hij hjk hk hik
      have hk2 : k < 2 := by simpa [ldDemoVs] using hk
      interval_cases k <;> interval_cases j <;> interval_cases i <;> rfl
    · intro i j hij hj hc
      have hj2 : j < 2 := by simpa [ldDemoVs] using hj
      interval_cases j <;> interval_cases i <;> norm_num [posAt, ldDemoVs]
  have hmem : ((0, 1) : ℕ × ℕ) ∈ ldWindowedPairs ldDemoVs ldDemoGenos 0 (1 / 5) false 0 2 := by
    rw [ldDemo_eval]
    exact List.mem_singleton.mpr rfl
  exact ld_window_zero_spec ldDemoVs ldDemoGenos (1 / 5) 0 2 (by norm_num [ldDemoVs])
    hord (0, 1) hmem

theorem idxScanAux_no_match (c : String) (lo hi : Int) :
    ∀ (l : List Variant) (i s e : ℕ),
      (∀ v ∈ l, ¬ matchesRegion c lo hi v) →
      idxScanAux c lo hi l i false s e = (false, s, e) := by
  intro l
  induction l with
  | nil => intro i s e _; rfl
  | cons v rest ih =>
    intro i s e hnm
    rw [idxScanAux]
    by_cases hc : v.chrom = c
    · rw [if_neg (by simp [hc])]
      by_cases hin : lo ≤ v.pos ∧ v.pos ≤ hi
      · exact absurd ⟨hc, hin.1, hin.2⟩ (hnm v (List.mem_cons_self v rest))
      · rw [if_neg hin, if_neg (by simp)]
        exact ih (i + 1) s e fun w hw => hnm w (List.mem_cons_of_mem v hw)
    · rw [if_pos (by simp [hc]), if_neg (by simp)]
      exact ih (i + 1) s e fun w hw => hnm w (List.mem_cons_of_mem v hw)

theorem digitChar_bounds (c : Char) (h : isDigitChar c = true) :
    '0' ≤ c ∧ c ≤ '9' := by
  simpa [isDigitChar] using h

theorem digitChar_not_space (c : Char) (h : isDigitChar c = true) :
    isSpaceChar c = false := by
  have hb := digitChar_bounds c h
  unfold isSpaceChar
  apply decide_eq_false
  rintro (rfl | rfl | rfl | rfl | rfl | rfl) <;> revert hb <;> decide

/-- C6 (amended): `ParseRegion` (offset-indexed overload) fails with
`InvalidInput` for every region string with malformed syntax — missing
colon, missing dash after the colon, a non-numeric bound, or a negative
bound — and also when a numeric bound overflows `long` (`strtol` sets
`errno = ERANGE`); the bounds of a successfully parsed region are the
`static_cast<int32_t>` (wrap modulo `2^32`) images of the parsed `long`
values, and for every region string that parses successfully and whose
narrowed bounds match no variant the scan returns the default-initialized
empty range with `start_idx == end_idx`. -/
theorem parse_region_error_empty (s : String) (vs : List Variant) :
    (splitFirst ':' s.toList = none → parseRegionIdx s vs = .invalidInput) ∧
    (∀ chromCs rest, splitFirst ':' s.toList = some (chromCs, rest) →
      (splitFirst '-' rest = none → parseRegionIdx s vs = .invalidInput) ∧
      (∀ startCs endCs, splitFirst '-' rest = some (startCs, endCs) →
        ((parseLong startCs = none ∨ parseLong endCs = none) →
          parseRegionIdx s vs = .invalidInput) ∧
        (∀ lo hi, parseLong startCs = some lo → parseLong endCs = some hi →
          lo < 0 ∨ hi < 0 → parseRegionIdx s vs = .invalidInput))) ∧
    (∀ c lo hi, parseRegionStr s = some (c, lo, hi) →
      (∀ v ∈ vs, ¬ matchesRegion c lo hi v) →
      parseRegionIdx s vs = .ok ⟨0, 0, true⟩) ∧
    (∀ ds : List Char, ds ≠ [] → ds.all isDigitChar = true →
      longMax < ((natFromDigits ds 0 : ℕ) : ℤ) → parseLong ds = none) ∧
    (∀ chromCs rest startCs endCs lo hi,
      splitFirst ':' s.toList = some (chromCs, rest) → chromCs ≠ [] →
      splitFirst '-' rest = some (startCs, endCs) →
      parseLong startCs = some lo → parseLong endCs = some hi →
      ¬(lo < 0 ∨ hi < 0) →
      parseRegionStr s = some (⟨chromCs⟩, toInt32 lo, toInt32 hi)) := by
  refine ⟨?_, ?_, ?_, ?_, ?_⟩
  · intro hc
    unfold parseRegionIdx parseRegionStr
    rw [hc]
  · intro chromCs rest hc
    refine ⟨?_, ?_⟩
    · intro hd
      unfold parseRegionIdx parseRegionStr
      rw [hc]
      dsimp only
      by_cases hech : chromCs = []
      · rw [if_pos hech]
      · rw [if_neg hech, hd]
    · intro startCs endCs hd
      constructor
      · intro hb
        unfold parseRegionIdx parseRegionStr
        rw [hc]
        dsimp only
        by_cases hech : chromCs = []
        · rw [if_pos hech]
        · rw [if_neg hech, hd]
          dsimp only
          rcases hs2 : parseLong startCs with _ | lv
          · rfl
          · rcases he2 : parseLong endCs with _ | ev
            · rfl
            · rcases hb with hb | hb
              · rw [hs2] at hb
                exact absurd hb (by simp)
              · rw [he2] at hb
                exact absurd hb (by simp)
      · intro lo hi hlo hhi hneg
        unfold parseRegionIdx parseRegionStr
        rw [hc]
        dsimp only
        by_cases hech : chromCs = []
        · rw [if_pos hech]
        · rw [if_neg hech, hd]
          dsimp only
          rw [hlo, hhi]
          dsimp only
          rw [if_pos hneg]
  · intro c lo hi hp hnm
    unfold parseRegionIdx
    rw [hp]
    simp only
    rw [idxScanAux_no_match c lo hi vs 0 0 0 hnm]
  · intro ds hne hdig hbig
    cases ds with
    | nil => exact absurd rfl hne
    | cons d rest =>
      have hd : isDigitChar d = true := by
        have hcopy := hdig
        rw [List.all_cons, Bool.and_eq_true] at hcopy
        exact hcopy.1
      have hb := digitChar_bounds d hd
      have hdrop : (d :: rest).dropWhile isSpaceChar = d :: rest := by
        rw [List.dropWhile_cons, digitChar_not_space d hd]
        simp
      unfold parseLong
      rw [hdrop]
      dsimp only
      rw [if_neg (show ¬ d = '+' by rintro rfl; revert hb; decide),
        if_neg (show ¬ d = '-' by rintro rfl; revert hb; decide)]
      unfold parseNatAll
      rw [if_pos ⟨hne, hdig⟩]
      dsimp only [Option.bind]
      rw [if_pos hbig]
  · intro chromCs rest startCs endCs lo hi hc hne hd hlo hhi hneg
    unfold parseRegionStr
    rw [hc]
    dsimp only
    rw [if_neg hne, hd]
    dsimp only
    rw [hlo, hhi]
    dsimp only
    rw [if_neg hneg]

/-- C6, counterexample: the region string `"1:99999999999999999999-2"` has a
colon, a dash, and non-empty all-digit (hence numeric and non-negative)
bounds — well-formed by the claim's malformedness list — yet `ParseRegion`
throws `InvalidInput` instead of returning a range, because `strtol`
overflows `long` and sets `errno`; and `"1:4294967297-4294967297"` parses
with bounds that wrap to `[1, 1]` under `static_cast<int32_t>`, so the scan
returns a non-empty range although no variant lies in the written bounds
`[4294967297, 4294967297]`. -/
theorem parse_region_overflow_counterexample :
    splitFirst ':' "1:99999999999999999999-2".toList =
      some (['1'], "99999999999999999999-2".toList) ∧
    splitFirst '-' "99999999999999999999-2".toList =
      some ("99999999999999999999".toList, ['2']) ∧
    ("99999999999999999999".toList ≠ [] ∧
      "99999999999999999999".toList.all isDigitChar = true) ∧
    ((['2'] : List Char) ≠ [] ∧ (['2'] : List Char).all isDigitChar = true) ∧
    parseRegionIdx "1:99999999999999999999-2" [] = .invalidInput ∧
    parseRegionIdx "1:4294967297-4294967297" [⟨"1", 1⟩] = .ok ⟨0, 1, true⟩ ∧
    ¬ matchesRegion "1" 4294967297 4294967297 ⟨"1", 1⟩ := by
  decide

/-- Witness for C6: the malformed string `"1:5"` (missing dash) fails; the
string `"3:1-2"` parses (with in-range bounds fixed by the cast) and
matches no variant of the demo table, returning the empty range `⟨0, 0⟩`;
and the 20-digit bound of the counterexample string overflows `long`, so
its parse fails. -/
theorem parse_region_error_empty_witness :
    parseRegionIdx "1:5" [⟨"1", 100⟩, ⟨"1", 150⟩, ⟨"2", 50⟩] = .invalidInput ∧
    parseRegionIdx "3:1-2" [⟨"1", 100⟩, ⟨"1", 150⟩, ⟨"2", 50⟩] = .ok ⟨0, 0, true⟩ ∧
    parseLong "99999999999999999999".toList = none := by
  refine ⟨?_, ?_, ?_⟩
  · exact ((parse_region_error_empty "1:5" _).2.1 ['1'] ['5'] (by decide)).1 (by decide)
  · exact (parse_region_error_empty "3:1-2" _).2.2.1 "3" 1 2 (by decide) (by decide)
  · exact (parse_region_error_empty "" []).2.2.2.1 "99999999999999999999".toList
      (by decide) (by decide) (by decide)

theorem eagerScanAux_no_match (c : String) (lo hi : Int) :
    ∀ (l : List Variant) (i : ℕ) (found : Bool) (s e : ℕ),
      (∀ v ∈ l, ¬ matchesRegion c lo hi v) →
      eagerScanAux c lo hi l i found s e = (found, s, e) := by
  intro l
  induction l with
  | nil => intro i found s e _; rfl
  | cons v rest ih =>
    intro i found s e hnm
    rw [eagerScanAux, if_neg (hnm v (List.mem_cons_self v rest))]
    exact ih (i + 1) found s e fun w hw => hnm w (List.mem_cons_of_mem v hw)

theorem mem_drop_index (vs : List Variant) (m : ℕ) (w : Variant)
    (hw : w ∈ vs.drop m) :
    ∃ k, m ≤ k ∧ k < vs.length ∧ vs.getD k ⟨"", 0⟩ = w := by
  obtain ⟨n, hn, he⟩ := List.mem_iff_getElem.mp hw
  have hlen : m + n < vs.length := by
    rw [List.length_drop] at hn
    omega
  refine ⟨m + n, by omega, hlen, ?_⟩
  rw [List.getD_eq_getElem _ _ hlen, ← List.getElem_drop]
  exact he

theorem scans_agree (c : String) (lo hi : Int) (vs : List Variant)
    (hord : ChromBlocksOrdered vs) :
    ∀ (l : List Variant) (i : ℕ) (found : Bool) (s e : ℕ),
      l = vs.drop i →
      (found = true → ∃ m, m < i ∧ m < vs.length ∧ chromAt vs m = c) →
      idxScanAux c lo hi l i found s e = eagerScanAux c lo hi l i found s e := by
  intro l
  induction l with
  | nil => intros; rfl
  | cons v rest ih =>
    intro i found s e hdrop hfound
    have hlen : i < vs.length := by
      by_contra hge
      rw [List.drop_eq_nil_iff.mpr (by omega)] at hdrop
      exact List.cons_ne_nil v rest hdrop
    rw [List.drop_eq_getElem_cons hlen] at hdrop
    injection hdrop with h1 h2
    have hvi : vs.getD i ⟨"", 0⟩ = v := by
      rw [List.getD_eq_getElem _ _ hlen]
      exact h1.symm
    by_cases hc : v.chrom = c
    · by_cases hin : lo ≤ v.pos ∧ v.pos ≤ hi
      · have hmatch : matchesRegion c lo hi v := ⟨hc, hin.1, hin.2⟩
        have hidx : idxScanAux c lo hi (v :: rest) i found s e =
            idxScanAux c lo hi rest (i + 1) true (if found then s else i) (i + 1) := by
          rw [idxScanAux, if_neg (show ¬ v.chrom ≠ c from by simp [hc]), if_pos hin]
        have heag : eagerScanAux c lo hi (v :: rest) i found s e =
            eagerScanAux c lo hi rest (i + 1) true (if found then s else i) (i + 1) := by
          rw [eagerScanAux, if_pos hmatch]
        rw [hidx, heag]
        refine ih (i + 1) true (if found then s else i) (i + 1) h2 fun _ => ?_
        refine ⟨i, by omega, hlen, ?_⟩
        simp only [chromAt]
        rw [hvi]
        exact hc
      · have hnmatch : ¬ matchesRegion c lo hi v := fun hm => hin ⟨hm.2.1, hm.2.2⟩
        have heag : eagerScanAux c lo hi (v :: rest) i found s e =
            eagerScanAux c lo hi rest (i + 1) found s e := by
          rw [eagerScanAux, if_neg hnmatch]
        by_cases hbrk : found = true ∧ hi < v.pos
        · have hidx : idxScanAux c lo hi (v :: rest) i found s e = (found, s, e) := by
            rw [idxScanAux, if_neg (show ¬ v.chrom ≠ c from by simp [hc]),
              if_neg hin, if_pos hbrk]
          rw [hidx, heag]
          refine (eagerScanAux_no_match c lo hi rest (i + 1) found s e ?_).symm
          intro w hw hm
          obtain ⟨k, hk1, hk2, hk3⟩ := mem_drop_index vs (i + 1) w (h2 ▸ hw)
          have hik : chromAt vs i = chromAt vs k := by
            simp only [chromAt]
            rw [hvi, hk3, hc, hm.1]
          have hpos := hord.2 i k (by omega) hk2 hik
          simp only [posAt] at hpos
          rw [hvi, hk3] at hpos
          have h3 := hm.2.2
          have h4 := hbrk.2
          omega
        · have hidx : idxScanAux c lo hi (v :: rest) i found s e =
              idxScanAux c lo hi rest (i + 1) found s e := by
            rw [idxScanAux, if_neg (show ¬ v.chrom ≠ c from by simp [hc]),
              if_neg hin, if_neg hbrk]
          rw [hidx, heag]
          refine ih (i + 1) found s e h2 fun hf => ?_
          obtain ⟨m, hm1, hm2, hm3⟩ := hfound hf
          exact ⟨m, by omega, hm2, hm3⟩
    · have hnmatch : ¬ matchesRegion c lo hi v := fun hm => hc hm.1
      have heag : eagerScanAux c lo hi (v :: rest) i found s e =
          eagerScanAux c lo hi rest (i + 1) found s e := by
        rw [eagerScanAux, if_neg hnmatch]
      by_cases hf : found = true
      · have hidx : idxScanAux c lo hi (v :: rest) i found s e = (found, s, e) := by
          rw [idxScanAux, if_pos (show v.chrom ≠ c from hc), if_pos hf]
        rw [hidx, heag]
        refine (eagerScanAux_no_match c lo hi rest (i + 1) found s e ?_).symm
        intro w hw hm
        obtain ⟨k, hk1, hk2, hk3⟩ := mem_drop_index vs (i + 1) w (h2 ▸ hw)
        obtain ⟨m, hm1, hm2, hm3⟩ := hfound hf
        have hmid2 : chromAt vs i = chromAt vs m := by
          refine hord.1 m i k (by omega) (by omega) hk2 ?_
          rw [hm3]
          simp only [chromAt]
          rw [hk3, hm.1]
        rw [hm3] at hmid2
        simp only [chromAt] at hmid2
        rw [hvi] at hmid2
        exact hc hmid2
      · have hidx : idxScanAux c lo hi (v :: rest) i found s e =
            idxScanAux c lo hi rest (i + 1) found s e := by
          rw [idxScanAux, if_pos (show v.chrom ≠ c from hc), if_neg hf]
        rw [hidx, heag]
        exact ih (i + 1) found s e h2 fun hft => absurd hft hf

/-- C5: for every variant table satisfying the ordering guarantee, the eager
`ParseRegion` (over `VariantMetadata`) and the offset-indexed `ParseRegion`
(over `VariantMetadataIndex`) agree completely: the same region strings
raise `InvalidInput`, and on success they return identical ranges (equal
`start_idx`, `end_idx`, `has_filter`). -/
theorem parse_region_refinement (s : String) (vs : List Variant)
    (hord : ChromBlocksOrdered vs) :
    parseRegionEager s vs = parseRegionIdx s vs := by
  unfold parseRegionEager parseRegionIdx
  cases hp : parseRegionStr s with
  | none => rfl
  | some t =>
    obtain ⟨c, lo, hi⟩ := t
    have h := scans_agree c lo hi vs hord vs 0 false 0 0 (List.drop_zero vs).symm
      (by simp)
    dsimp only
    rw [h]

/-- Witness for C5 on a three-variant table: both overloads return the
range `[1, 2)` for the region `"1:120-200"`. -/
theorem parse_region_refinement_witness :
    parseRegionIdx "1:120-200" [⟨"1", 100⟩, ⟨"1", 150⟩, ⟨"2", 50⟩] =
      .ok ⟨1, 2, true⟩ ∧
    parseRegionEager "1:120-200" [⟨"1", 100⟩, ⟨"1", 150⟩, ⟨"2", 50⟩] =
      .ok ⟨1, 2, true⟩ := by
  have hord : ChromBlocksOrdered [⟨"1", 100⟩, ⟨"1", 150⟩, ⟨"2", 50⟩] := by
    constructor
    · intro i j k hij hjk hk hik
      have hk3 : k < 3 := by simpa using hk
      interval_cases k <;> interval_cases j <;> interval_cases i <;>
        first | rfl | (exact absurd hik (by decide))
    · intro i j hij hj hc
      have hj3 : j < 3 := by simpa using hj
      interval_cases j <;> interval_cases i <;>
        first | decide | (exact absurd hc (by decide))
  have hval : parseRegionIdx "1:120-200" [⟨"1", 100⟩, ⟨"1", 150⟩, ⟨"2", 50⟩] =
      .ok ⟨1, 2, true⟩ := by decide
  exact ⟨hval,
    (parse_region_refinement "1:120-200" _ hord).trans hval⟩

theorem buildPositional_mem (rangeStart : ℕ) :
    ∀ (ws : List ℚ) (i0 : ℕ) (sv : ScoredVariant),
      sv ∈ buildPositional rangeStart ws i0 ↔
        ∃ j, j < ws.length ∧ ws.getD j 0 ≠ 0 ∧
          sv = ⟨rangeStart + i0 + j, ws.getD j 0, false⟩ := by
  intro ws
  induction ws with
  | nil => intro i0 sv; simp [buildPositional]
  | cons w rest ih =>
    intro i0 sv
    rw [buildPositional]
    by_cases hw : w ≠ 0
    · rw [if_pos hw]
      constructor
      · intro hmem
        rcases List.mem_cons.mp hmem with hhd | htl
        · refine ⟨0, by simp, by simpa using hw, ?_⟩
          rw [hhd]
          simp
        · obtain ⟨j, hj1, hj2, hj3⟩ := (ih (i0 + 1) sv).mp htl
          refine ⟨j + 1, by simpa using hj1, by simpa using hj2, ?_⟩
          rw [hj3]
          simp only [List.getD_cons_succ]
          congr 1
          omega
      · rintro ⟨j, hj1, hj2, hj3⟩
        cases j with
        | zero =>
          apply List.mem_cons.mpr
          left
          rw [hj3]
          simp
        | succ j =>
          apply List.mem_cons.mpr
          right
          refine (ih (i0 + 1) sv).mpr ⟨j, by simpa using hj1, by simpa using hj2, ?_⟩
          rw [hj3]
          simp only [List.getD_cons_succ]
          congr 1
          omega
    · rw [if_neg hw]
      push_neg at hw
      constructor
      · intro hmem
        obtain ⟨j, hj1, hj2, hj3⟩ := (ih (i0 + 1) sv).mp hmem
        refine ⟨j + 1, by simpa using hj1, by simpa using hj2, ?_⟩
        rw [hj3]
        simp only [List.getD_cons_succ]
        congr 1
        omega
      · rintro ⟨j, hj1, hj2, hj3⟩
        cases j with
        | zero => simp [hw] at hj2
        | succ j =>
          refine (ih (i0 + 1) sv).mpr ⟨j, by simpa using hj1, by simpa using hj2, ?_⟩
          rw [hj3]
          simp only [List.getD_cons_succ]
          congr 1
          omega

theorem buildPositional_pairwise (rangeStart : ℕ) :
    ∀ (ws : List ℚ) (i0 : ℕ),
      (buildPositional rangeStart ws i0).Pairwise
        fun a b => a.variant_idx < b.variant_idx := by
  intro ws
  induction ws with
  | nil => intro i0; simp [buildPositional]
  | cons w rest ih =>
    intro i0
    rw [buildPositional]
    by_cases hw : w ≠ 0
    · rw [if_pos hw]
      refine List.pairwise_cons.mpr ⟨?_, ih (i0 + 1)⟩
      intro b hb
      obtain ⟨j, hj1, hj2, hj3⟩ := (buildPositional_mem rangeStart rest (i0 + 1) b).mp hb
      rw [hj3]
      simp only
      omega
    · rw [if_neg hw]
      exact ih (i0 + 1)

/-- C7 counterexample: with an empty positional weights list over an empty
variant range, the list length equals `end_idx - start_idx`, yet bind still
fails with `InvalidInput` (the empty-list check precedes the length
check). -/
theorem score_bind_positional_counterexample :
    plinkScoreBindPositional [] 5 5 = .invalidInput ∧
    ([] : List ℚ).length = 5 - 5 := by
  constructor
  · rfl
  · rfl

/-- C7 (amended): for a positional weights list, bind fails with
`InvalidInput` whenever the list is empty (even when the range is also
empty) or the list length differs from `end_idx - start_idx`; otherwise the
scored-variants list contains exactly the entries
`(start_idx + i, w_i, flip = false)` for those indices `i` with `w_i != 0`,
in ascending variant-index order. -/
theorem score_bind_positional_spec (ws : List ℚ) (rangeStart rangeEnd : ℕ) :
    (ws = [] → plinkScoreBindPositional ws rangeStart rangeEnd = .invalidInput) ∧
    (ws.length ≠ rangeEnd - rangeStart →
      plinkScoreBindPositional ws rangeStart rangeEnd = .invalidInput) ∧
    (ws ≠ [] → ws.length = rangeEnd - rangeStart →
      ∃ l, plinkScoreBindPositional ws rangeStart rangeEnd = .ok l ∧
        (∀ sv, sv ∈ l ↔ ∃ i, i < ws.length ∧ ws.getD i 0 ≠ 0 ∧
          sv = ⟨rangeStart + i, ws.getD i 0, false⟩) ∧
        l.Pairwise fun a b => a.variant_idx < b.variant_idx) := by
  refine ⟨?_, ?_, ?_⟩
  · intro he
    unfold plinkScoreBindPositional
    rw [if_pos he]
  · intro hlen
    unfold plinkScoreBindPositional
    by_cases he : ws = []
    · rw [if_pos he]
    · rw [if_neg he, if_pos hlen]
  · intro he hlen
    refine ⟨buildPositional rangeStart ws 0, ?_, ?_, buildPositional_pairwise rangeStart ws 0⟩
    · unfold plinkScoreBindPositional
      rw [if_neg he, if_neg (by omega)]
    · intro sv
      rw [buildPositional_mem rangeStart ws 0 sv]
      constructor
      · rintro ⟨j, hj1, hj2, hj3⟩
        exact ⟨j, hj1, hj2, by simpa using hj3⟩
      · rintro ⟨j, hj1, hj2, hj3⟩
        exact ⟨j, hj1, hj2, by simpa using hj3⟩

/-- Witness for C7 at weights `[2, 0, 3]` over the range `[10, 13)`: bind
succeeds, the zero weight is omitted, and the entries appear in ascending
variant-index order. -/
theorem score_bind_positional_spec_witness :
    plinkScoreBindPositional [2, 0, 3] 10 13 =
      .ok [⟨10, 2, false⟩, ⟨12, 3, false⟩] ∧
    (⟨11, 0, false⟩ : ScoredVariant) ∉
      [(⟨10, 2, false⟩ : ScoredVariant), ⟨12, 3, false⟩] := by
  obtain ⟨l, hl, hmem, hpw⟩ :=
    (score_bind_positional_spec [2, 0, 3] 10 13).2.2 (by decide) (by decide)
  have hval : plinkScoreBindPositional [2, 0, 3] 10 13 =
      .ok [⟨10, 2, false⟩, ⟨12, 3, false⟩] := by decide
  exact ⟨hval, by decide⟩

/-- C8: in default (mean-imputation) scoring mode, a variant with at least
one non-missing dosage updates every sample `s` as
`score_sum[s] += weight * scored`, `named_allele_sum[s] += scored`, and
`allele_ct[s] += 2`, where `scored = flip ? 2 - alt : alt` and `alt` is the
dosage with the `-9.0` sentinel replaced by the mean of the non-missing
dosages; a variant whose dosages are all missing leaves all accumulators
unchanged. -/
theorem perform_scoring_default_spec (dosages : List ℚ) (w : ℚ) (flip : Bool)
    (acc : ScoreAcc)
    (hs : acc.scoreSums.length = dosages.length)
    (hn : acc.namedSums.length = dosages.length)
    (ha : acc.alleleCts.length = dosages.length) :
    ((dosages.filter notMissing).length = 0 →
      scoreVariantDefault dosages w flip acc = acc) ∧
    ((dosages.filter notMissing).length ≠ 0 →
      ∀ s, s < dosages.length →
        (scoreVariantDefault dosages w flip acc).scoreSums.getD s 0 =
          acc.scoreSums.getD s 0 + w * (if flip then
            2 - (if dosages.getD s 0 = -9 then
              (dosages.filter notMissing).sum / (((dosages.filter notMissing).length : ℕ) : ℚ)
              else dosages.getD s 0)
            else (if dosages.getD s 0 = -9 then
              (dosages.filter notMissing).sum / (((dosages.filter notMissing).length : ℕ) : ℚ)
              else dosages.getD s 0)) ∧
        (scoreVariantDefault dosages w flip acc).namedSums.getD s 0 =
          acc.namedSums.getD s 0 + (if flip then
            2 - (if dosages.getD s 0 = -9 then
              (dosages.filter notMissing).sum / (((dosages.filter notMissing).length : ℕ) : ℚ)
              else dosages.getD s 0)
            else (if dosages.getD s 0 = -9 then
              (dosages.filter notMissing).sum / (((dosages.filter notMissing).length : ℕ) : ℚ)
              else dosages.getD s 0)) ∧
        (scoreVariantDefault dosages w flip acc).alleleCts.getD s 0 =
          acc.alleleCts.getD s 0 + 2) := by
  constructor
  · intro hz
    unfold scoreVariantDefault
    rw [if_pos hz]
  · intro hnz s hlt
    have h1 : s < acc.scoreSums.length := by omega
    have h2 : s < acc.namedSums.length := by omega
    have h3 : s < acc.alleleCts.length := by omega
    unfold scoreVariantDefault
    rw [if_neg hnz]
    refine ⟨?_, ?_, ?_⟩
    · have hlen : s < ((dosages.zip acc.scoreSums).map fun p =>
          p.2 + w * (if flip then
            2 - (if p.1 = -9 then
              (dosages.filter notMissing).sum / (((dosages.filter notMissing).length : ℕ) : ℚ)
              else p.1)
            else (if p.1 = -9 then
              (dosages.filter notMissing).sum / (((dosages.filter notMissing).length : ℕ) : ℚ)
              else p.1))).length := by
        simp [List.length_zip]
        omega
      rw [List.getD_eq_getElem _ _ hlen, List.getElem_map, List.getElem_zip,
        List.getD_eq_getElem _ _ h1, List.getD_eq_getElem dosages _ hlt]
    · have hlen : s < ((dosages.zip acc.namedSums).map fun p =>
          p.2 + (if flip then
            2 - (if p.1 = -9 then
              (dosages.filter notMissing).sum / (((dosages.filter notMissing).length : ℕ) : ℚ)
              else p.1)
            else (if p.1 = -9 then
              (dosages.filter notMissing).sum / (((dosages.filter notMissing).length : ℕ) : ℚ)
              else p.1))).length := by
        simp [List.length_zip]
        omega
      rw [List.getD_eq_getElem _ _ hlen, List.getElem_map, List.getElem_zip,
        List.getD_eq_getElem _ _ h2, List.getD_eq_getElem dosages _ hlt]
    · have hlen : s < (acc.alleleCts.map fun n => n + 2).length := by
        simp
        omega
      rw [List.getD_eq_getElem _ _ hlen, List.getElem_map,
        List.getD_eq_getElem _ _ h3]

/-- Witness for C8 at dosages `[1, -9]`, weight `2`, no flip: the missing
second sample is imputed to the mean of the single non-missing dosage, and
both samples gain `allele_ct += 2`. -/
theorem perform_scoring_default_spec_witness :
    (scoreVariantDefault [1, -9] 2 false ⟨[0, 0], [0, 0], [0, 0]⟩).alleleCts.getD 1 0 =
      ([0, 0] : List ℕ).getD 1 0 + 2 ∧
    (scoreVariantDefault [1, -9] 2 false ⟨[0, 0], [0, 0], [0, 0]⟩).scoreSums.getD 1 0 = 2 := by
  have h := (perform_scoring_default_spec [1, -9] 2 false ⟨[0, 0], [0, 0], [0, 0]⟩
    (by decide) (by decide) (by decide)).2 (by decide) 1 (by decide)
  refine ⟨h.2.2, ?_⟩
  rw [h.1]
  have hf : ([1, -9] : List ℚ).filter notMissing = [1] := by decide
  rw [hf]
  norm_num

theorem applyMaskAux_length (sampleCt : ℕ) :
    ∀ (m : List Bool) (i : ℕ) (cs : List ℕ),
      (applyMaskAux sampleCt m i cs).length = cs.length := by
  intro m
  induction m with
  | nil => intro i cs; rfl
  | cons b rest ih =>
    intro i cs
    rw [applyMaskAux, ih]
    split
    · exact List.length_set cs i _
    · rfl

theorem getD_set_ne (cs : List ℕ) (i s v : ℕ) (h : i ≠ s) :
    (cs.set i v).getD s 0 = cs.getD s 0 := by
  by_cases hlt : s < cs.length
  · rw [List.getD_eq_getElem _ _ (by simpa using hlt),
      List.getD_eq_getElem _ _ hlt, List.getElem_set_ne h]
  · rw [List.getD_eq_default _ _ (by simpa using not_lt.mp hlt),
      List.getD_eq_default _ _ (not_lt.mp hlt)]

theorem applyMaskAux_getD_lo (sampleCt : ℕ) :
    ∀ (m : List Bool) (i : ℕ) (cs : List ℕ) (s : ℕ), s < i →
      (applyMaskAux sampleCt m i cs).getD s 0 = cs.getD s 0 := by
  intro m
  induction m with
  | nil => intro i cs s _; rfl
  | cons b rest ih =>
    intro i cs s hsi
    rw [applyMaskAux, ih (i + 1) _ s (by omega)]
    split
    · exact getD_set_ne cs i s _ (by omega)
    · rfl

theorem applyMaskAux_getD_le (sampleCt : ℕ) :
    ∀ (m : List Bool) (i : ℕ) (cs : List ℕ) (s : ℕ),
      (applyMaskAux sampleCt m i cs).getD s 0 ≤ cs.getD s 0 + 1 := by
  intro m
  induction m with
  | nil => intro i cs s; simp [applyMaskAux]
  | cons b rest ih =>
    intro i cs s
    rw [applyMaskAux]
    by_cases hsi : s = i
    · subst hsi
      rw [applyMaskAux_getD_lo sampleCt rest (s + 1) _ s (by omega)]
      split
      · by_cases hlen : s < cs.length
        · rw [List.getD_eq_getElem _ _ (by simpa using hlen),
            List.getElem_set_self (by simpa using hlen)]
        · rw [List.getD_eq_default _ _ (by simpa using not_lt.mp hlen)]
          omega
      · omega
    · calc (applyMaskAux sampleCt rest (i + 1)
            (if b = true ∧ i < sampleCt then cs.set i (cs.getD i 0 + 1) else cs)).getD s 0
          ≤ (if b = true ∧ i < sampleCt then cs.set i (cs.getD i 0 + 1) else cs).getD s 0 + 1 :=
            ih (i + 1) _ s
      _ = cs.getD s 0 + 1 := by
            split
            · rw [getD_set_ne cs i s _ (fun h => hsi h.symm)]
            · rfl

theorem foldl_mask_getD_le (sampleCt : ℕ) :
    ∀ (masks : List (List Bool)) (cs : List ℕ) (s : ℕ),
      (masks.foldl (fun cs m => applyMaskAux sampleCt m 0 cs) cs).getD s 0 ≤
        cs.getD s 0 + masks.length := by
  intro masks
  induction masks with
  | nil => intro cs s; simp
  | cons m rest ih =>
    intro cs s
    rw [List.foldl_cons]
    calc (rest.foldl (fun cs m => applyMaskAux sampleCt m 0 cs)
            (applyMaskAux sampleCt m 0 cs)).getD s 0
        ≤ (applyMaskAux sampleCt m 0 cs).getD s 0 + rest.length := ih _ s
      _ ≤ (cs.getD s 0 + 1) + rest.length := by
          have := applyMaskAux_getD_le sampleCt m 0 cs s
          omega
      _ = cs.getD s 0 + (m :: rest).length := by
          rw [List.length_cons]
          omega

theorem phaseA_getD_le (sampleCt : ℕ) (masks : List (List Bool)) (s : ℕ) :
    (phaseA sampleCt masks).getD s 0 ≤ masks.length := by
  have hrep : (List.replicate sampleCt (0 : ℕ)).getD s 0 = 0 := by
    by_cases hlt : s < sampleCt
    · rw [List.getD_eq_getElem _ _ (by simpa using hlt), List.getElem_replicate]
    · rw [List.getD_eq_default _ _ (by simpa using not_lt.mp hlt)]
  have := foldl_mask_getD_le sampleCt masks (List.replicate sampleCt 0) s
  rw [hrep] at this
  unfold phaseA
  omega

/-- C9: in sample-mode missingness, every emitted row satisfies
`MISSING_CT + OBS_CT == total_variant_ct` (the number of variants in the
scanned range): phase A increments each sample's counter at most once per
scanned variant, so the counter never exceeds `total_variant_ct`, and phase
B's `obs_ct = total_variant_ct - missing_ct` does not underflow. -/
theorem missing_sample_row_spec (sampleCt : ℕ) (masks : List (List Bool))
    (sidx : ℕ) :
    (sampleMissingRow (phaseA sampleCt masks) masks.length sidx).1 +
      (sampleMissingRow (phaseA sampleCt masks) masks.length sidx).2 =
      masks.length := by
  have hle := phaseA_getD_le sampleCt masks sidx
  unfold sampleMissingRow
  omega

end PlinkingDuck
